import Mathlib

/-!
Verification development for the redis-protobuf path-addressed field access
engine.  The message/field/value data model, the read dispatch
(`getFieldReply`, `getArrayElement`), the command entry points
(`replyWithMsg`, `getRun`, `typeRun`) are embedded from
`src/sw/redis-protobuf/get_command.cpp` and `type_command.cpp`.
The path resolver, the JSON codec and the write dispatcher are modelled
from the specification (their sources, `field_ref.cpp`, `utils.cpp` and
`set_command.cpp`, are not part of the provided sources).
-/

namespace RedisPb

/-- The closed set of protobuf C++ scalar kinds used by the dispatcher
(`gp::FieldDescriptor::CPPTYPE_*`).  For message-typed fields the nested
type name is carried so that an unset sub-message can be materialized. -/
inductive CppType where
  | tInt32
  | tInt64
  | tUInt32
  | tUInt64
  | tDouble
  | tFloat
  | tBool
  | tString
  | tMessage (typeName : String)
  | tEnum
deriving DecidableEq

mutual
/-- A live message instance: its type name plus its field slots.  Each slot
carries the declared kind, so the descriptor information is recoverable
from the instance (descriptors are immutable per the spec). -/
inductive Msg where
  | mk (typeName : String) (fields : List Field)

/-- One field slot of a message instance: a singular field (set or unset),
a repeated field with its ordered element list, or a map field. -/
inductive Field where
  | singular (name : String) (kind : CppType) (val : Option Val)
  | repeated (name : String) (kind : CppType) (vals : List Val)
  | mapF (name : String)

/-- A stored field value.  Machine integers are modelled as `Int`/`Nat`
with explicit width bounds enforced at write time; `float`/`double` values
are modelled as the exact rational value of the stored machine number. -/
inductive Val where
  | vi32 (v : Int)
  | vi64 (v : Int)
  | vu32 (v : Nat)
  | vu64 (v : Nat)
  | vflt (q : ℚ)
  | vdbl (q : ℚ)
  | vbool (b : Bool)
  | vstr (s : String)
  | vmsg (m : Msg)
  | venum (v : Int)

end

/-- Type name of a message (`Message::GetTypeName`). -/
def typeNameOf : Msg → String
  | .mk tn _ => tn

/-- Field slots of a message. -/
def fieldsOf : Msg → List Field
  | .mk _ _fs => _fs

/-- Replace the field slots of a message. -/
def withFields : Msg → List Field → Msg
  | .mk tn _, fs2 => .mk tn fs2

/-- Declared name of a field slot. -/
def fieldName : Field → String
  | .singular n _ _ => n
  | .repeated n _ _ => n
  | .mapF n => n

/-- Descriptor lookup by field name (first slot with that name). -/
def findField : List Field → String → Option Field
  | [], _ => none
  | f :: fs, n => if fieldName f = n then some f else findField fs n

/-- Replace the first field slot with the given name. -/
def updateField : List Field → String → Field → List Field
  | [], _, _ => []
  | f :: fs, n, nf => if fieldName f = n then nf :: fs else f :: updateField fs n nf

/-- One path segment: a field name with an optional non-negative index,
as produced by the Path Parser from strings like `"b[2]"`. -/
structure Segment where
  name : String
  index : Option Nat
deriving DecidableEq

/-- A parsed path: the declared root type name (`Path::type()`) plus the
segment sequence (`Path::fields()`); an empty segment list denotes the
whole message. -/
structure Path where
  rootType : String
  segs : List Segment
deriving DecidableEq

/-- The closed error taxonomy of the engine. -/
inductive PbErr where
  | parseErr
  | typeMismatch
  | unknownField
  | outOfRange
  | unsupportedType
deriving DecidableEq

/-- Error text as surfaced to the caller. -/
def errText : PbErr → String
  | .parseErr => "ParseError"
  | .typeMismatch => "TypeMismatchError"
  | .unknownField => "UnknownFieldError"
  | .outOfRange => "OutOfRangeError"
  | .unsupportedType => "UnsupportedTypeError"

/-- The reply channel of the module API.  `integer` is
`RedisModule_ReplyWithLongLong` (a signed 64-bit channel), `simpleString`
is `RedisModule_ReplyWithSimpleString`, `stringBuffer` is
`RedisModule_ReplyWithStringBuffer`, `nullReply` is
`RedisModule_ReplyWithNull`, `errorReply` is `api::reply_with_error` on a
caught exception.  `assertFailure` marks control reaching one of the
`assert(false)` placeholders in the dispatcher (the process aborts there
in an assert-enabled build). -/
inductive Reply where
  | nullReply
  | integer (v : Int)
  | simpleString (s : String)
  | stringBuffer (s : String)
  | errorReply (msg : String)
  | assertFailure
deriving DecidableEq

/-- Conversion of a `uint64_t` value to the signed 64-bit `long long`
argument of `RedisModule_ReplyWithLongLong` (two's complement wrap). -/
def toSigned64 (v : Nat) : Int :=
  if v < 2 ^ 63 then (v : Int) else (v : Int) - 2 ^ 64

/-- Left-pad a numeral string with zeros to six characters. -/
def pad6 (s : String) : String :=
  String.mk (List.replicate (6 - s.length) '0') ++ s

/-- Render an integer `n` as the fixed six-decimal-place numeral
`n / 10^6`, e.g. `fixed6Render 3140000 = "3.140000"`. -/
def fixed6Render (n : Int) : String :=
  let sign := if n < 0 then "-" else ""
  let m := n.natAbs
  sign ++ toString (m / 1000000) ++ "." ++ pad6 (toString (m % 1000000))

/-- The integer nearest to `10^6 * q` (ties upward), computed directly on
the rational's numerator and denominator:
`⌊10^6 q + 1/2⌋ = (2 * 10^6 * num + den) / (2 * den)` with floor
division. -/
def ratRound6 (q : ℚ) : Int :=
  (2 * 1000000 * q.num + (q.den : Int)) / (2 * (q.den : Int))

/-- Embedding of `std::to_string` on a floating-point value: `"%f"`
formatting, i.e. the exact stored value rendered with six fixed decimal
places (rounded to the nearest multiple of `10^-6`). -/
def toFixed6 (q : ℚ) : String :=
  fixed6Render (ratRound6 q)

/-- JSON-like values produced by the Value Codec.  `jnum` renders the
fixed-six-decimal text of a float/double field (the codec reuses the
dispatcher's read representation for scalar leaves). -/
inductive JVal where
  | jint (v : Int)
  | jnum (q : ℚ)
  | jbool (b : Bool)
  | jstr (s : String)
  | jarr (xs : List JVal)
  | jobj (kvs : List (String × JVal))

mutual
/-- Modelled from the spec: `util::msg_to_json` (the Value Codec,
`utils.cpp` is not among the provided sources).  Per section 4.4 it emits
one entry per present field, recursively for nested messages and with
repeated fields as ordered arrays; the spec leaves the exact presence
rule open, and this model uses: a singular field is present iff it is
explicitly set, a repeated field is present iff it is non-empty (map
fields, unsupported by the engine, are omitted). -/
def msgToJVal : Msg → JVal
  | .mk _ fs => .jobj (fieldListToJ fs)

/-- Entries contributed by a list of field slots. -/
def fieldListToJ : List Field → List (String × JVal)
  | [] => []
  | f :: fs => fieldToJ f ++ fieldListToJ fs

/-- Entries contributed by one field slot (zero or one). -/
def fieldToJ : Field → List (String × JVal)
  | .singular _ _ none => []
  | .singular n _ (some v) => [(n, valToJ v)]
  | .repeated _ _ [] => []
  | .repeated n _ (v :: vs) => [(n, .jarr (valToJ v :: valListToJ vs))]
  | .mapF _ => []

/-- Codec rendering of a list of stored values. -/
def valListToJ : List Val → List JVal
  | [] => []
  | v :: vs => valToJ v :: valListToJ vs

/-- Codec rendering of one stored value, reusing the dispatcher's read
representation for scalar leaves. -/
def valToJ : Val → JVal
  | .vi32 v => .jint v
  | .vi64 v => .jint v
  | .vu32 v => .jint (v : Int)
  | .vu64 v => .jint (toSigned64 v)
  | .vflt q => .jnum q
  | .vdbl q => .jnum q
  | .vbool b => .jbool b
  | .vstr s => .jstr s
  | .vmsg m => msgToJVal m
  | .venum v => .jint v
end

mutual
/-- Textual rendering of a JSON-like value. -/
def jrender : JVal → String
  | .jint v => toString v
  | .jnum q => toFixed6 q
  | .jbool b => if b then "true" else "false"
  | .jstr s => "\x22" ++ s ++ "\x22"
  | .jarr xs => "[" ++ jrenderList xs ++ "]"
  | .jobj kvs => "\x7b" ++ jrenderKVs kvs ++ "\x7d"

/-- Comma-separated rendering of array elements. -/
def jrenderList : List JVal → String
  | [] => ""
  | [x] => jrender x
  | x :: xs => jrender x ++ "," ++ jrenderList xs

/-- Comma-separated rendering of object entries. -/
def jrenderKVs : List (String × JVal) → String
  | [] => ""
  | [(k, v)] => "\x22" ++ k ++ "\x22:" ++ jrender v
  | (k, v) :: kvs => "\x22" ++ k ++ "\x22:" ++ jrender v ++ "," ++ jrenderKVs kvs
end

/-- Top-level keys of a JSON-like value (empty for non-objects). -/
def jkeys : JVal → List String
  | .jobj kvs => kvs.map Prod.fst
  | _ => []

/-- Names of the present fields of a slot list under the codec's presence
rule: singular fields that are set, repeated fields that are non-empty. -/
def presentNames : List Field → List String
  | [] => []
  | .singular n _ (some _) :: fs => n :: presentNames fs
  | .singular _ _ none :: fs => presentNames fs
  | .repeated n _ (_ :: _) :: fs => n :: presentNames fs
  | .repeated _ _ [] :: fs => presentNames fs
  | .mapF _ :: fs => presentNames fs

/-- Reflection read of a singular `int32` slot (`Reflection::GetInt32`):
the stored value, or the proto default `0` when unset. -/
def asInt32 : Option Val → Int
  | some (.vi32 v) => v
  | _ => 0

/-- Reflection read of a singular `int64` slot. -/
def asInt64 : Option Val → Int
  | some (.vi64 v) => v
  | _ => 0

/-- Reflection read of a singular `uint32` slot. -/
def asUInt32 : Option Val → Nat
  | some (.vu32 v) => v
  | _ => 0

/-- Reflection read of a singular `uint64` slot. -/
def asUInt64 : Option Val → Nat
  | some (.vu64 v) => v
  | _ => 0

/-- Reflection read of a singular `double` slot. -/
def asDouble : Option Val → ℚ
  | some (.vdbl q) => q
  | _ => 0

/-- Reflection read of a singular `float` slot. -/
def asFloat : Option Val → ℚ
  | some (.vflt q) => q
  | _ => 0

/-- Reflection read of a singular `bool` slot. -/
def asBool : Option Val → Bool
  | some (.vbool b) => b
  | _ => false

/-- Reflection read of a singular `string`/`bytes` slot. -/
def asString : Option Val → String
  | some (.vstr s) => s
  | _ => ""

/-- Reflection read of a message-typed slot: the stored sub-message, or
the default (empty) instance of the declared type when unset. -/
def asMsg (tn : String) : Option Val → Msg
  | some (.vmsg m) => m
  | _ => .mk tn []

/-- A resolved field reference (`FieldRef`): the owning message instance
holding the resolved field, the matched field slot, and the optional
array index.  Per spec section 4.2 the owner is the message the walk's
cursor points at when the last segment is matched (i.e. the parent of the
leaf field). -/
structure FieldRefM where
  msg : Msg
  field : Field
  idx : Option Nat

/-- Declared scalar kind of a field slot (`FieldRef::type()`); map fields
are aggregates handled before the kind switch. -/
def fieldKind : Field → Option CppType
  | .singular _ k _ => some k
  | .repeated _ k _ => some k
  | .mapF _ => none

/-- Embedding of `GetCommand::_get_array_element`: read dispatch over the
element kind for an indexed repeated field. -/
def getArrayElement (ref : FieldRefM) : Reply :=
  match ref.field, ref.idx with
  | .repeated _ kind vs, some i =>
    match kind with
    | .tInt32 => .integer (asInt32 vs[i]?)
    | .tInt64 => .integer (asInt64 vs[i]?)
    | .tUInt32 => .integer ((asUInt32 vs[i]? : Int))
    | .tUInt64 => .integer (toSigned64 (asUInt64 vs[i]?))
    | .tDouble => .simpleString (toFixed6 (asDouble vs[i]?))
    | .tFloat => .simpleString (toFixed6 (asFloat vs[i]?))
    | .tBool => .integer (if asBool vs[i]? then 1 else 0)
    | .tString => .stringBuffer (asString vs[i]?)
    | .tMessage tn => .stringBuffer (jrender (msgToJVal (asMsg tn vs[i]?)))
    | .tEnum => .assertFailure
  | _, _ => .assertFailure

/-- Embedding of `GetCommand::_get_field`: an array element defers to
`_get_array_element`; a bare repeated field or a map field reaches
`assert(false)` (a `TODO` placeholder); otherwise the switch dispatches
on the scalar kind.  Note that the `CPPTYPE_MESSAGE` arm serializes
`*sub_msg` where `sub_msg = field.msg`, i.e. the message OWNING the
resolved field, not the field's own sub-message value; the `CPPTYPE_ENUM`
arm is another `assert(false)` placeholder. -/
def getFieldReply (ref : FieldRefM) : Reply :=
  match ref.idx with
  | some _ => getArrayElement ref
  | none =>
    match ref.field with
    | .repeated _ _ _ => .assertFailure
    | .mapF _ => .assertFailure
    | .singular _ kind v =>
      match kind with
      | .tInt32 => .integer (asInt32 v)
      | .tInt64 => .integer (asInt64 v)
      | .tUInt32 => .integer ((asUInt32 v : Int))
      | .tUInt64 => .integer (toSigned64 (asUInt64 v))
      | .tDouble => .simpleString (toFixed6 (asDouble v))
      | .tFloat => .simpleString (toFixed6 (asFloat v))
      | .tBool => .integer (if asBool v then 1 else 0)
      | .tString => .stringBuffer (asString v)
      | .tMessage _ => .stringBuffer (jrender (msgToJVal ref.msg))
      | .tEnum => .assertFailure

/-- A descriptor registry (spec section 6, schema/type provider): maps a
type name to the default instance of that message type.  Used only to
materialize or default an unset sub-message during path resolution. -/
def Registry : Type := String → Msg

/-- Resolution of the LAST path segment (spec section 4.2): look the name
up in the current message; if an index is present the field must be
repeated and, for reads, the index must be in bounds of the current
length; the resulting `FieldRef` is built from the current message, the
matched slot and the optional index. -/
def resolveLast (m : Msg) (seg : Segment) : Except PbErr FieldRefM :=
  match findField (fieldsOf m) seg.name with
  | none => .error .unknownField
  | some f =>
    match seg.index with
    | none => .ok ⟨m, f, none⟩
    | some i =>
      match f with
      | .repeated n k vs =>
        if i < vs.length then .ok ⟨m, .repeated n k vs, some i⟩
        else .error .outOfRange
      | _ => .error .typeMismatch

/-- Modelled from the spec: the Schema Resolver's read-mode segment walk
(`FieldRef` construction in `field_ref.cpp`, not among the provided
sources).  Per section 4.2: iterate segments left to right; an unknown
name is an error; an index requires a repeated field and in-bounds index;
a non-last segment must resolve to a message-typed value to descend
(otherwise a type mismatch); in read mode an unset singular sub-message
is traversed as the default instance of its type. -/
def getSegs (reg : Registry) : Msg → List Segment → Except PbErr FieldRefM
  | _, [] => .error .parseErr
  | m, [seg] => resolveLast m seg
  | m, seg :: seg2 :: rest =>
    match findField (fieldsOf m) seg.name with
    | none => .error .unknownField
    | some f =>
      match seg.index with
      | some i =>
        match f with
        | .repeated _ (.tMessage tn) vs =>
          if i < vs.length then getSegs reg (asMsg tn vs[i]?) (seg2 :: rest)
          else .error .outOfRange
        | _ => .error .typeMismatch
      | none =>
        match f with
        | .singular _ (.tMessage tn) v => getSegs reg (asMsg tn v) (seg2 :: rest)
        | _ => .error .typeMismatch

/-- Read of a non-empty path against a message: resolve, then dispatch
(`_get_field`); a resolution error is surfaced as an error reply. -/
def getPath (reg : Registry) (m : Msg) (segs : List Segment) : Reply :=
  match getSegs reg m segs with
  | .error e => .errorReply (errText e)
  | .ok ref => getFieldReply ref

/-- Embedding of `GetCommand::_reply_with_msg` (together with `_get_msg`
and the error catch in `run`): an empty path list returns the whole
message's JSON; otherwise the declared root type of the first path must
equal the instance's type name (checked before anything else, a mismatch
throws `Error("type missmatch")`); an empty segment list again returns
the whole message; otherwise the field is resolved and dispatched. -/
def replyWithMsg (reg : Registry) (m : Msg) (paths : List Path) : Reply :=
  match paths with
  | [] => .stringBuffer (jrender (msgToJVal m))
  | path :: _ =>
    if typeNameOf m ≠ path.rootType then .errorReply "type missmatch"
    else if path.segs.isEmpty then .stringBuffer (jrender (msgToJVal m))
    else getPath reg m path.segs

/-- A key-value store view: `none` models a key that does not exist or
does not hold this module's type (`api::key_exists` fails). -/
def Store : Type := String → Option Msg

/-- Embedding of `GetCommand::run` after argument parsing: a missing key
replies null and returns `REDISMODULE_OK` (`true`); otherwise the message
is fetched and `_reply_with_msg` runs (caught errors reply an error and
also return a module status). -/
def getRun (reg : Registry) (store : Store) (key : String) (paths : List Path) :
    Reply × Bool :=
  match store key with
  | none => (.nullReply, true)
  | some m => (replyWithMsg reg m paths, true)

/-- Embedding of `TypeCommand::run` after argument parsing: a missing key
replies null and returns `REDISMODULE_OK`; otherwise the message's type
name is replied as a simple string. -/
def typeRun (store : Store) (key : String) : Reply × Bool :=
  match store key with
  | none => (.nullReply, true)
  | some m => (.simpleString (typeNameOf m), true)

/-- A write value supplied by the command layer, already in the domain of
one scalar kind. -/
inductive WVal where
  | wint (v : Int)
  | wnum (q : ℚ)
  | wbool (b : Bool)
  | wstr (s : String)
deriving DecidableEq

/-- Modelled from the spec: the Type Dispatcher's write contract per
scalar kind (section 4.3; `set_command.cpp` is not among the provided
sources).  Integer kinds are exact width-preserving assignments with
out-of-range input rejected; float/double store the parsed value; bool
and string store exactly; enum is unsupported; a message kind is not
writable at the scalar layer. -/
def assignVal (kind : CppType) (w : WVal) : Except PbErr Val :=
  match kind, w with
  | .tInt32, .wint v =>
    if -(2 ^ 31) ≤ v ∧ v < 2 ^ 31 then .ok (.vi32 v) else .error .outOfRange
  | .tInt64, .wint v =>
    if -(2 ^ 63) ≤ v ∧ v < 2 ^ 63 then .ok (.vi64 v) else .error .outOfRange
  | .tUInt32, .wint v =>
    if 0 ≤ v ∧ v < 2 ^ 32 then .ok (.vu32 v.toNat) else .error .outOfRange
  | .tUInt64, .wint v =>
    if 0 ≤ v ∧ v < 2 ^ 64 then .ok (.vu64 v.toNat) else .error .outOfRange
  | .tDouble, .wnum q => .ok (.vdbl q)
  | .tFloat, .wnum q => .ok (.vflt q)
  | .tBool, .wbool b => .ok (.vbool b)
  | .tString, .wstr s => .ok (.vstr s)
  | .tEnum, _ => .error .unsupportedType
  | .tMessage _, _ => .error .typeMismatch
  | _, _ => .error .typeMismatch

/-- Modelled from the spec: the scalar write at a resolved leaf.  A map
field or a bare repeated field is an unsupported write; a singular field
gets the assigned value; an indexed repeated field is assigned in place
when the index is in bounds. -/
def setLeaf (f : Field) (idx : Option Nat) (w : WVal) : Except PbErr Field :=
  match f, idx with
  | .mapF _, _ => .error .unsupportedType
  | .singular n kind _, none =>
    (assignVal kind w).map (fun nv => .singular n kind (some nv))
  | .singular _ _ _, some _ => .error .typeMismatch
  | .repeated n kind vs, some i =>
    if i < vs.length then
      (assignVal kind w).map (fun nv => .repeated n kind (vs.set i nv))
    else .error .outOfRange
  | .repeated _ _ _, none => .error .unsupportedType

/-- Modelled from the spec: the write-mode walk plus scalar assignment
(sections 4.2 and 4.3).  The result pairs the optional error with the
(possibly mutated) instance: per section 4.2 descending through an unset
singular message field in write mode materializes it on access, so that
mutation persists even when a later segment fails — the pair models the
in-place mutation of the C++ `Message`. -/
def setSegs (reg : Registry) : Msg → List Segment → WVal → Option PbErr × Msg
  | m, [], _ => (some .parseErr, m)
  | m, [seg], w =>
    match findField (fieldsOf m) seg.name with
    | none => (some .unknownField, m)
    | some f =>
      match setLeaf f seg.index w with
      | .error e => (some e, m)
      | .ok f2 => (none, withFields m (updateField (fieldsOf m) seg.name f2))
  | m, seg :: seg2 :: rest, w =>
    match findField (fieldsOf m) seg.name with
    | none => (some .unknownField, m)
    | some f =>
      match seg.index with
      | some i =>
        match f with
        | .repeated n (.tMessage tn) vs =>
          if i < vs.length then
            match vs[i]? with
            | some (.vmsg sub) =>
              let r := setSegs reg sub (seg2 :: rest) w
              (r.1, withFields m (updateField (fieldsOf m) seg.name
                (.repeated n (.tMessage tn) (vs.set i (.vmsg r.2)))))
            | _ => (some .typeMismatch, m)
          else (some .outOfRange, m)
        | _ => (some .typeMismatch, m)
      | none =>
        match f with
        | .singular n (.tMessage tn) v =>
          let r := setSegs reg (asMsg tn v) (seg2 :: rest) w
          (r.1, withFields m (updateField (fieldsOf m) seg.name
            (.singular n (.tMessage tn) (some (.vmsg r.2)))))
        | _ => (some .typeMismatch, m)

/-- The rational `2^-24`, an exactly representable binary float value. -/
def eps24 : ℚ := ⟨1, 16777216, by norm_num, Nat.coprime_one_left 16777216⟩

/-- The rational zero, with explicit numerator and denominator. -/
def qzero : ℚ := ⟨0, 1, one_ne_zero, Nat.coprime_one_right 1⟩

/-- Guard for the amended C9: `true` when the write-mode walk for the
given segments materializes nothing, i.e. every non-last segment's
message-typed field already holds a set sub-message. -/
def noUnsetOnPath : Msg → List Segment → Bool
  | _, [] => true
  | _, [_] => true
  | m, seg :: seg2 :: rest =>
    match findField (fieldsOf m) seg.name, seg.index with
    | some (.singular _ (.tMessage _) (some (.vmsg sub))), none =>
      noUnsetOnPath sub (seg2 :: rest)
    | some (.singular _ (.tMessage _) _), none => false
    | some (.repeated _ (.tMessage _) vs), some i =>
      match vs[i]? with
      | some (.vmsg sub) => noUnsetOnPath sub (seg2 :: rest)
      | _ => true
    | _, _ => true

/-- The amended round-trip value domain: integers representable in the
signed 64-bit reply channel, and rationals that are exact multiples of
`10^-6` (one unit of the fixed-six-decimal read text). -/
def faithfulDom : WVal → Prop
  | .wint v => -(2 ^ 63) ≤ v ∧ v < 2 ^ 63
  | .wnum q => ∃ z : ℤ, q = (z : ℚ) / 1000000
  | .wbool _ => True
  | .wstr _ => True

/-- The reply returns exactly the value `w` under the dispatcher's read
representation: an integer reply carrying the integer, a 0/1 integer
reply for bool, the exact byte buffer for string, and for float/double
the fixed-six-decimal text of a numeral exactly equal to the value. -/
def replyEqVal : WVal → Reply → Prop
  | .wint v, r => r = .integer v
  | .wbool b, r => r = .integer (if b then 1 else 0)
  | .wstr s, r => r = .stringBuffer s
  | .wnum q, r => ∃ z : ℤ, (z : ℚ) / 1000000 = q ∧ r = .simpleString (fixed6Render z)

theorem findField_name {fs : List Field} {n : String} {f : Field}
    (h : findField fs n = some f) : fieldName f = n := by
  induction fs with
  | nil => simp [findField] at h
  | cons g gs ih =>
    by_cases hg : fieldName g = n
    · simp [findField, hg] at h
      exact h ▸ hg
    · simp [findField, hg] at h
      exact ih h

theorem findField_updateField {fs : List Field} {n : String} {f : Field}
    (nf : Field) (h : findField fs n = some f) (hn : fieldName nf = n) :
    findField (updateField fs n nf) n = some nf := by
  induction fs with
  | nil => simp [findField] at h
  | cons g gs ih =>
    by_cases hg : fieldName g = n
    · simp [findField, updateField, hg, hn]
    · simp [findField, updateField, hg] at h ⊢
      exact ih h

theorem updateField_self {fs : List Field} {n : String} {f : Field}
    (h : findField fs n = some f) : updateField fs n f = fs := by
  induction fs with
  | nil => rfl
  | cons g gs ih =>
    by_cases hg : fieldName g = n
    · simp [findField, hg] at h
      subst h
      simp [updateField, hg]
    · simp [findField, hg] at h
      simp [updateField, hg, ih h]

theorem set_of_getElem_eq {α : Type} {l : List α} {i : Nat} {x : α}
    (h : l[i]? = some x) : l.set i x = l := by
  induction l generalizing i with
  | nil => simp at h
  | cons a t ih =>
    cases i with
    | zero =>
      simp at h
      simp [List.set, h]
    | succ j =>
      simp at h
      simp [List.set, ih h]

theorem getArrayElement_ne_null (ref : FieldRefM) :
    getArrayElement ref ≠ .nullReply := by
  rcases ref with ⟨m, f, idx⟩
  cases f with
  | singular n k v => cases idx <;> simp [getArrayElement]
  | mapF n => cases idx <;> simp [getArrayElement]
  | repeated n k vs =>
    cases idx with
    | none => simp [getArrayElement]
    | some i => cases k <;> simp [getArrayElement]

theorem getFieldReply_ne_null (ref : FieldRefM) :
    getFieldReply ref ≠ .nullReply := by
  rcases ref with ⟨m, f, idx⟩
  cases idx with
  | some i => exact getArrayElement_ne_null ⟨m, f, some i⟩
  | none =>
    cases f with
    | singular n k v => cases k <;> simp [getFieldReply]
    | repeated n k vs => simp [getFieldReply]
    | mapF n => simp [getFieldReply]

theorem replyWithMsg_ne_null (reg : Registry) (m : Msg) (paths : List Path) :
    replyWithMsg reg m paths ≠ .nullReply := by
  cases paths with
  | nil => simp [replyWithMsg]
  | cons p ps =>
    simp only [replyWithMsg]
    by_cases ht : typeNameOf m ≠ p.rootType
    · simp [ht]
    · simp only [ht, if_false]
      by_cases he : p.segs.isEmpty
      · simp [he]
      · simp only [he, if_false, getPath]
        cases hres : getSegs reg m p.segs with
        | error e => simp
        | ok ref => exact getFieldReply_ne_null ref

theorem ratRound6Aux (a : Int) (b : ℕ) (hb : b ≠ 0) :
    ((a : ℚ) / (b : ℚ)) * 1000000 + 1/2
      = ((2 * 1000000 * a + (b : Int) : Int) : ℚ) / ((2 * b : ℕ) : ℚ) := by
  have hbq : (b : ℚ) ≠ 0 := Nat.cast_ne_zero.mpr hb
  field_simp
  ring

theorem ratRound6_eq_round (q : ℚ) : ratRound6 q = round (q * 1000000) := by
  have key := ratRound6Aux q.num q.den q.den_nz
  rw [Rat.num_div_den] at key
  rw [ratRound6, round_eq, key, Rat.floor_intCast_div_natCast]
  push_cast
  norm_num

theorem keys_fieldListToJ (fs : List Field) :
    (fieldListToJ fs).map Prod.fst = presentNames fs := by
  induction fs with
  | nil => rfl
  | cons f fs ih =>
    cases f with
    | singular n k v => cases v <;> simp [fieldListToJ, fieldToJ, presentNames, ih]
    | repeated n k vs => cases vs <;> simp [fieldListToJ, fieldToJ, presentNames, ih]
    | mapF n => simp [fieldListToJ, fieldToJ, presentNames, ih]

/-- C3: a get invocation with a non-absent path whose declared root type
name differs from the instance's actual type name fails with the
type-mismatch error, before any path segment is processed or field
accessed — the result is the error for every segment list and every
message content. -/
theorem rootTypeMismatchCheckedFirst (reg : Registry) (m : Msg) (p : Path)
    (ps : List Path) (h : p.rootType ≠ typeNameOf m) :
    replyWithMsg reg m (p :: ps) = .errorReply "type missmatch" := by
  simp [replyWithMsg, Ne.symm h]

/-- Witness for C3 at a concrete instance and path. -/
theorem rootTypeMismatchCheckedFirstWitness :
    replyWithMsg (fun _ => Msg.mk "" [])
      (Msg.mk "pkg.Person" [.singular "name" .tString (some (.vstr "Bob"))])
      [⟨"pkg.Address", [⟨"name", none⟩]⟩] = .errorReply "type missmatch" :=
  rootTypeMismatchCheckedFirst (fun _ => Msg.mk "" [])
    (Msg.mk "pkg.Person" [.singular "name" .tString (some (.vstr "Bob"))])
    ⟨"pkg.Address", [⟨"name", none⟩]⟩ [] (by decide)

/-- C10: for both the get and the type command, a key that does not exist
(or does not hold the module's type) replies null with a success status,
and the key's absence is the only condition producing a null reply. -/
theorem missingKeyNullReply (reg : Registry) (store : Store) (key : String)
    (paths : List Path) :
    ((getRun reg store key paths).1 = .nullReply ↔ store key = none)
    ∧ ((typeRun store key).1 = .nullReply ↔ store key = none)
    ∧ ((getRun reg store key paths).2 = true ∧ (typeRun store key).2 = true) := by
  cases hs : store key with
  | none => simp [getRun, typeRun, hs]
  | some m =>
    refine ⟨?_, ?_, by simp [getRun, typeRun, hs]⟩
    · simp [getRun, hs]
      exact replyWithMsg_ne_null reg m paths
    · simp [typeRun, hs]

/-- C6: get with no path argument (empty path list) and get with an empty
path both return the whole-message JSON-like serialization, and the
serialization's top-level keys are exactly the present field names of the
message — this holds for every message, hence recursively for every
nested message. -/
theorem wholeMessageSerialization (reg : Registry) (m : Msg) :
    replyWithMsg reg m [] = .stringBuffer (jrender (msgToJVal m))
    ∧ replyWithMsg reg m [⟨typeNameOf m, []⟩] = .stringBuffer (jrender (msgToJVal m))
    ∧ jkeys (msgToJVal m) = presentNames (fieldsOf m) := by
  refine ⟨rfl, by simp [replyWithMsg], ?_⟩
  cases m with
  | mk tn fs => simpa [msgToJVal, jkeys, fieldsOf] using keys_fieldListToJ fs

/-- C1: evaluation of the code at the failing input.  For a path whose
last segment resolves to a singular message-typed field, `_get_field`
serializes `*field.msg` — the message OWNING the field — rather than the
value of the resolved field: the reply equals the serialization of the
whole parent, which differs from the serialization of the sub-message. -/
theorem getMessageFieldSerializesOwner :
    replyWithMsg (fun _ => Msg.mk "" [])
      (Msg.mk "Person"
        [ .singular "name" .tString (some (.vstr "Bob"))
        , .singular "addr" (.tMessage "Addr")
            (some (.vmsg (Msg.mk "Addr" [.singular "city" .tString (some (.vstr "SF"))]))) ])
      [⟨"Person", [⟨"addr", none⟩]⟩]
      = .stringBuffer (jrender (msgToJVal (Msg.mk "Person"
        [ .singular "name" .tString (some (.vstr "Bob"))
        , .singular "addr" (.tMessage "Addr")
            (some (.vmsg (Msg.mk "Addr" [.singular "city" .tString (some (.vstr "SF"))]))) ])))
    ∧ jrender (msgToJVal (Msg.mk "Person"
        [ .singular "name" .tString (some (.vstr "Bob"))
        , .singular "addr" (.tMessage "Addr")
            (some (.vmsg (Msg.mk "Addr" [.singular "city" .tString (some (.vstr "SF"))]))) ]))
      ≠ jrender (msgToJVal (Msg.mk "Addr" [.singular "city" .tString (some (.vstr "SF"))])) := by
  exact ⟨rfl, by decide⟩

/-- C2: evaluation of the code at the failing inputs.  A read access on an
enum field, a bare repeated field (no index), or a map field reaches the
`assert(false)` placeholder of `_get_field` / `_get_array_element`; it
does not produce an `UnsupportedTypeError` reply (nor any error reply). -/
theorem unsupportedKindsAssertPlaceholder :
    getPath (fun _ => Msg.mk "" [])
      (Msg.mk "M" [.singular "e" .tEnum (some (.venum 1))]) [⟨"e", none⟩]
      = .assertFailure
    ∧ getPath (fun _ => Msg.mk "" [])
      (Msg.mk "M" [.repeated "r" .tInt32 [.vi32 7]]) [⟨"r", none⟩]
      = .assertFailure
    ∧ getPath (fun _ => Msg.mk "" [])
      (Msg.mk "M" [.mapF "mp"]) [⟨"mp", none⟩]
      = .assertFailure
    ∧ getPath (fun _ => Msg.mk "" [])
      (Msg.mk "M" [.repeated "re" .tEnum [.venum 1]]) [⟨"re", some 0⟩]
      = .assertFailure
    ∧ (∀ s : String, Reply.assertFailure ≠ .errorReply s)
    ∧ (∀ v : Int, Reply.assertFailure ≠ .integer v) := by
  exact ⟨rfl, rfl, rfl, rfl, fun s => by simp, fun v => by simp⟩

/-- C4 (amended): int32/int64/uint32 reads return the exact stored
integer, both singular and as repeated elements; a uint64 read returns
`toSigned64 v` — the value wrapped into the signed 64-bit reply channel —
which equals the stored value exactly iff it is at most `2^63 - 1`, and
is negative (reinterpreted) for any stored value in `[2^63, 2^64)`. -/
theorem integerReadExactAmended (m0 : Msg) (n : String) (v : Int) (u : Nat)
    (vs : List Val) :
    getFieldReply ⟨m0, .singular n .tInt32 (some (.vi32 v)), none⟩ = .integer v
    ∧ getFieldReply ⟨m0, .singular n .tInt64 (some (.vi64 v)), none⟩ = .integer v
    ∧ getFieldReply ⟨m0, .singular n .tUInt32 (some (.vu32 u)), none⟩ = .integer (u : Int)
    ∧ getFieldReply ⟨m0, .singular n .tUInt64 (some (.vu64 u)), none⟩
        = .integer (toSigned64 u)
    ∧ getArrayElement ⟨m0, .repeated n .tInt64 (.vi64 v :: vs), some 0⟩ = .integer v
    ∧ getArrayElement ⟨m0, .repeated n .tUInt64 (.vu64 u :: vs), some 0⟩
        = .integer (toSigned64 u)
    ∧ (u < 2 ^ 63 → toSigned64 u = (u : Int))
    ∧ (2 ^ 63 ≤ u → u < 2 ^ 64 → toSigned64 u < 0) := by
  refine ⟨rfl, rfl, rfl, rfl, by simp [getArrayElement, asInt64],
    by simp [getArrayElement, asUInt64], ?_, ?_⟩
  · intro hu
    rw [toSigned64, if_pos hu]
  · intro hlo hhi
    have hnot : ¬ u < 2 ^ 63 := not_lt.mpr hlo
    rw [toSigned64, if_neg hnot]
    have : (u : Int) < 2 ^ 64 := by exact_mod_cast hhi
    omega

/-- Witness for C4 at concrete stored values. -/
theorem integerReadExactAmendedWitness :
    getFieldReply ⟨Msg.mk "M" [], .singular "a" .tInt32 (some (.vi32 30)), none⟩
      = .integer 30
    ∧ toSigned64 7 = (7 : Int)
    ∧ toSigned64 (2 ^ 63) < 0 :=
  ⟨(integerReadExactAmended (Msg.mk "M" []) "a" 30 7 []).1,
   (integerReadExactAmended (Msg.mk "M" []) "a" 30 7 []).2.2.2.2.2.2.1 (by decide),
   (integerReadExactAmended (Msg.mk "M" []) "a" 30 (2 ^ 63) []).2.2.2.2.2.2.2
     (by decide) (by decide)⟩

/-- Counterexample for C4 as stated: the uint64 value `2^63` (greater
than `2^63 - 1`) is not returned exactly — the reply carries `-2^63`. -/
theorem uint64ReadReinterpreted :
    getFieldReply ⟨Msg.mk "M" [], .singular "u" .tUInt64 (some (.vu64 (2 ^ 63))), none⟩
      = .integer (-(2 ^ 63))
    ∧ (-(2 ^ 63) : Int) ≠ ((2 ^ 63 : Nat) : Int) := by
  exact ⟨by decide, by decide⟩

/-- C5 (amended): a float/double read (singular or repeated element)
replies a textual simple string — never an integer reply — containing the
stored value rendered with six fixed decimal places, i.e. the numeral
`round (10^6 * v) / 10^6`; the denoted number is within `5 * 10^-7` of the
stored value, but fractional detail finer than `10^-6` is lost. -/
theorem floatReadFixedSixAmended (m0 : Msg) (n : String) (q : ℚ) (vs : List Val) :
    getFieldReply ⟨m0, .singular n .tDouble (some (.vdbl q)), none⟩
      = .simpleString (fixed6Render (round (q * 1000000)))
    ∧ getFieldReply ⟨m0, .singular n .tFloat (some (.vflt q)), none⟩
      = .simpleString (fixed6Render (round (q * 1000000)))
    ∧ getArrayElement ⟨m0, .repeated n .tDouble (.vdbl q :: vs), some 0⟩
      = .simpleString (fixed6Render (round (q * 1000000)))
    ∧ getArrayElement ⟨m0, .repeated n .tFloat (.vflt q :: vs), some 0⟩
      = .simpleString (fixed6Render (round (q * 1000000)))
    ∧ (∀ z : Int, getFieldReply ⟨m0, .singular n .tDouble (some (.vdbl q)), none⟩
        ≠ .integer z)
    ∧ |q - (round (q * 1000000) : ℚ) / 1000000| ≤ 1 / 2000000 := by
  refine ⟨by rw [← ratRound6_eq_round]; rfl, by rw [← ratRound6_eq_round]; rfl,
    by rw [← ratRound6_eq_round]; simp [getArrayElement, asDouble, toFixed6],
    by rw [← ratRound6_eq_round]; simp [getArrayElement, asFloat, toFixed6],
    fun z => by simp [getFieldReply], ?_⟩
  have h := abs_sub_round (q * 1000000)
  have e : q - (round (q * 1000000) : ℚ) / 1000000
      = (q * 1000000 - (round (q * 1000000) : ℚ)) / 1000000 := by ring
  rw [e, abs_div]
  have hd : |(1000000 : ℚ)| = 1000000 := by norm_num
  rw [hd]
  rw [div_le_div_iff₀ (by norm_num) (by norm_num)]
  nlinarith [h]

theorem eps24_val : eps24 = 1 / 2 ^ 24 := by
  rw [eps24, Rat.mk'_eq_divInt, Rat.divInt_eq_div]
  norm_num

theorem qzero_val : qzero = 0 := rfl

/-- Counterexample for C5 as stated: the fractional value `2^-24` (an
exact binary float) and the value `0` produce the identical reply text
`"0.000000"` — the fractional part is silently lost, so the reply is not
the canonical decimal text of the stored value. -/
theorem fractionalValueTruncated :
    getFieldReply ⟨Msg.mk "M" [], .singular "d" .tDouble (some (.vdbl eps24)), none⟩
      = .simpleString "0.000000"
    ∧ getFieldReply ⟨Msg.mk "M" [], .singular "d" .tDouble (some (.vdbl qzero)), none⟩
      = .simpleString "0.000000"
    ∧ eps24 = 1 / 2 ^ 24 ∧ qzero = 0 ∧ eps24 ≠ qzero := by
  exact ⟨by decide, by decide, eps24_val, qzero_val, by decide⟩

/-- C7: bounds discipline of read resolution.  First: for a message whose
slot list holds a repeated field of current length `N`, resolving a read
at index `i` on that field succeeds iff `i < N` and fails with
`OutOfRangeError` iff `i ≥ N`.  Second: every `FieldRef` produced by read
resolution satisfies the invariant that a present index implies the field
is repeated and the index is within the current repeated size. -/
theorem repeatedReadBounds :
    (∀ (reg : Registry) (m : Msg) (nm : String) (k : CppType) (vs : List Val) (i : Nat),
      findField (fieldsOf m) nm = some (.repeated nm k vs) →
      ((∃ ref, getSegs reg m [⟨nm, some i⟩] = .ok ref) ↔ i < vs.length)
      ∧ (getSegs reg m [⟨nm, some i⟩] = .error .outOfRange ↔ vs.length ≤ i))
    ∧ (∀ (reg : Registry) (m : Msg) (segs : List Segment) (ref : FieldRefM) (i : Nat),
      getSegs reg m segs = .ok ref → ref.idx = some i →
      ∃ nm k vs, ref.field = .repeated nm k vs ∧ i < vs.length) := by
  constructor
  · intro reg m nm k vs i hfind
    simp only [getSegs, resolveLast, hfind]
    by_cases hlt : i < vs.length
    · simp [hlt]
    · simp [hlt, Nat.le_of_not_lt hlt]
  · intro reg m segs
    induction segs generalizing m with
    | nil => intro ref i h; simp [getSegs] at h
    | cons seg rest ih =>
      intro ref i h hidx
      cases rest with
      | nil =>
        simp only [getSegs, resolveLast] at h
        cases hfind : findField (fieldsOf m) seg.name with
        | none => rw [hfind] at h; exact absurd h (by simp)
        | some f =>
          rw [hfind] at h
          cases hseg : seg.index with
          | none =>
            rw [hseg] at h
            simp at h
            rw [← h] at hidx
            simp at hidx
          | some j =>
            rw [hseg] at h
            cases f with
            | singular n2 k2 v2 => simp at h
            | mapF n2 => simp at h
            | repeated n2 k2 vs2 =>
              simp only at h
              by_cases hlt : j < vs2.length
              · rw [if_pos hlt] at h
                simp at h
                rw [← h] at hidx
                simp at hidx
                exact ⟨n2, k2, vs2, by rw [← h], hidx ▸ hlt⟩
              · rw [if_neg hlt] at h
                simp at h
      | cons seg2 rest2 =>
        simp only [getSegs] at h
        cases hfind : findField (fieldsOf m) seg.name with
        | none => rw [hfind] at h; exact absurd h (by simp)
        | some f =>
          rw [hfind] at h
          cases hseg : seg.index with
          | none =>
            rw [hseg] at h
            cases f with
            | singular n2 k2 v2 =>
              cases k2 with
              | tMessage tn => exact ih (asMsg tn v2) ref i h hidx
              | tInt32 => simp at h
              | tInt64 => simp at h
              | tUInt32 => simp at h
              | tUInt64 => simp at h
              | tDouble => simp at h
              | tFloat => simp at h
              | tBool => simp at h
              | tString => simp at h
              | tEnum => simp at h
            | repeated n2 k2 vs2 => simp at h
            | mapF n2 => simp at h
          | some j =>
            rw [hseg] at h
            cases f with
            | singular n2 k2 v2 => simp at h
            | mapF n2 => simp at h
            | repeated n2 k2 vs2 =>
              cases k2 with
              | tMessage tn =>
                simp only at h
                by_cases hlt : j < vs2.length
                · rw [if_pos hlt] at h
                  exact ih (asMsg tn vs2[j]?) ref i h hidx
                · rw [if_neg hlt] at h
                  simp at h
              | tInt32 => simp at h
              | tInt64 => simp at h
              | tUInt32 => simp at h
              | tUInt64 => simp at h
              | tDouble => simp at h
              | tFloat => simp at h
              | tBool => simp at h
              | tString => simp at h
              | tEnum => simp at h

theorem fieldsOf_withFields (m : Msg) (fs : List Field) :
    fieldsOf (withFields m fs) = fs := by
  cases m
  rfl

theorem withFields_fieldsOf (m : Msg) : withFields m (fieldsOf m) = m := by
  cases m
  rfl

/-- C9 (amended): a failed write leaves the instance unchanged provided
the walk traverses no unset singular message field; per spec section 4.2
an unset singular message field traversed in write mode is materialized
on access, and that mutation persists even when a later segment fails. -/
theorem writeErrorLeavesUnchangedAmended (reg : Registry) (segs : List Segment)
    (m m2 : Msg) (w : WVal) (e : PbErr)
    (h : setSegs reg m segs w = (some e, m2))
    (hguard : noUnsetOnPath m segs = true) : m2 = m := by
  induction segs generalizing m m2 with
  | nil =>
    simp [setSegs] at h
    exact h.2.symm
  | cons seg rest ih =>
    cases rest with
    | nil =>
      simp only [setSegs] at h
      cases hfind : findField (fieldsOf m) seg.name with
      | none =>
        simp only [hfind] at h
        simp at h
        exact h.2.symm
      | some f =>
        simp only [hfind] at h
        cases hleaf : setLeaf f seg.index w with
        | error e2 =>
          simp only [hleaf] at h
          simp at h
          exact h.2.symm
        | ok f2 =>
          simp only [hleaf] at h
          simp at h
    | cons seg2 rest2 =>
      simp only [setSegs] at h
      cases hfind : findField (fieldsOf m) seg.name with
      | none =>
        simp only [hfind] at h
        simp at h
        exact h.2.symm
      | some f =>
        simp only [hfind] at h
        cases hseg : seg.index with
        | some i =>
          simp only [hseg] at h
          cases f with
          | singular n2 k2 v2 =>
            simp at h
            exact h.2.symm
          | mapF n2 =>
            simp at h
            exact h.2.symm
          | repeated n2 k2 vs2 =>
            cases k2 with
            | tMessage tn =>
              by_cases hlt : i < vs2.length
              · simp only [if_pos hlt] at h
                cases hvi : vs2[i]? with
                | none =>
                  simp only [hvi] at h
                  simp at h
                  exact h.2.symm
                | some vx =>
                  simp only [hvi] at h
                  cases vx with
                  | vmsg sub =>
                    simp only [Prod.mk.injEq] at h
                    obtain ⟨h1, h2⟩ := h
                    have hr : setSegs reg sub (seg2 :: rest2) w
                        = (some e, (setSegs reg sub (seg2 :: rest2) w).2) :=
                      Prod.ext h1 rfl
                    have hg2 : noUnsetOnPath sub (seg2 :: rest2) = true := by
                      simp only [noUnsetOnPath, hfind, hseg, hvi] at hguard
                      exact hguard
                    have hsub := ih sub _ hr hg2
                    rw [← h2, hsub, set_of_getElem_eq hvi, updateField_self hfind,
                      withFields_fieldsOf]
                  | vi32 v => simp at h; exact h.2.symm
                  | vi64 v => simp at h; exact h.2.symm
                  | vu32 v => simp at h; exact h.2.symm
                  | vu64 v => simp at h; exact h.2.symm
                  | vflt v => simp at h; exact h.2.symm
                  | vdbl v => simp at h; exact h.2.symm
                  | vbool v => simp at h; exact h.2.symm
                  | vstr v => simp at h; exact h.2.symm
                  | venum v => simp at h; exact h.2.symm
              · simp only [if_neg hlt] at h
                simp at h
                exact h.2.symm
            | tInt32 => simp at h; exact h.2.symm
            | tInt64 => simp at h; exact h.2.symm
            | tUInt32 => simp at h; exact h.2.symm
            | tUInt64 => simp at h; exact h.2.symm
            | tDouble => simp at h; exact h.2.symm
            | tFloat => simp at h; exact h.2.symm
            | tBool => simp at h; exact h.2.symm
            | tString => simp at h; exact h.2.symm
            | tEnum => simp at h; exact h.2.symm
        | none =>
          simp only [hseg] at h
          cases f with
          | repeated n2 k2 vs2 =>
            simp at h
            exact h.2.symm
          | mapF n2 =>
            simp at h
            exact h.2.symm
          | singular n2 k2 v2 =>
            cases k2 with
            | tMessage tn =>
              cases v2 with
              | none =>
                simp [noUnsetOnPath, hfind, hseg] at hguard
              | some vx =>
                cases vx with
                | vmsg sub =>
                  simp only [Prod.mk.injEq] at h
                  obtain ⟨h1, h2⟩ := h
                  have hr : setSegs reg (asMsg tn (some (.vmsg sub))) (seg2 :: rest2) w
                      = (some e, (setSegs reg (asMsg tn (some (.vmsg sub))) (seg2 :: rest2) w).2) :=
                    Prod.ext h1 rfl
                  have hg2 : noUnsetOnPath sub (seg2 :: rest2) = true := by
                    simp only [noUnsetOnPath, hfind, hseg] at hguard
                    exact hguard
                  have hsub := ih (asMsg tn (some (.vmsg sub))) _ hr (by exact hg2)
                  rw [← h2, hsub]
                  show withFields m (updateField (fieldsOf m) seg.name
                    (.singular n2 (.tMessage tn) (some (.vmsg sub)))) = m
                  rw [updateField_self hfind, withFields_fieldsOf]
                | vi32 v =>
                  simp [noUnsetOnPath, hfind, hseg] at hguard
                | vi64 v =>
                  simp [noUnsetOnPath, hfind, hseg] at hguard
                | vu32 v =>
                  simp [noUnsetOnPath, hfind, hseg] at hguard
                | vu64 v =>
                  simp [noUnsetOnPath, hfind, hseg] at hguard
                | vflt v =>
                  simp [noUnsetOnPath, hfind, hseg] at hguard
                | vdbl v =>
                  simp [noUnsetOnPath, hfind, hseg] at hguard
                | vbool v =>
                  simp [noUnsetOnPath, hfind, hseg] at hguard
                | vstr v =>
                  simp [noUnsetOnPath, hfind, hseg] at hguard
                | venum v =>
                  simp [noUnsetOnPath, hfind, hseg] at hguard
            | tInt32 => simp at h; exact h.2.symm
            | tInt64 => simp at h; exact h.2.symm
            | tUInt32 => simp at h; exact h.2.symm
            | tUInt64 => simp at h; exact h.2.symm
            | tDouble => simp at h; exact h.2.symm
            | tFloat => simp at h; exact h.2.symm
            | tBool => simp at h; exact h.2.symm
            | tString => simp at h; exact h.2.symm
            | tEnum => simp at h; exact h.2.symm

/-- Counterexample for C9 as stated: a write through the unset singular
message field `a` materializes it (an empty `T` sub-message is allocated
and the field becomes set) before the next segment `b` fails with an
unknown-field error — the failed write leaves the instance changed. -/
theorem failedWriteMaterializes :
    setSegs (fun _ => Msg.mk "T" []) (Msg.mk "M" [.singular "a" (.tMessage "T") none])
      [⟨"a", none⟩, ⟨"b", none⟩] (.wint 1)
      = (some .unknownField,
         Msg.mk "M" [.singular "a" (.tMessage "T") (some (.vmsg (Msg.mk "T" [])))])
    ∧ Msg.mk "M" [.singular "a" (.tMessage "T") (some (.vmsg (Msg.mk "T" [])))]
        ≠ Msg.mk "M" [.singular "a" (.tMessage "T") none] := by
  refine ⟨rfl, ?_⟩
  intro hc
  simp at hc

/-- Witness for the amended C9: the same failed write on an instance
whose `a` sub-message is already set leaves the instance unchanged. -/
theorem writeErrorLeavesUnchangedAmendedWitness :
    (setSegs (fun _ => Msg.mk "T" [])
      (Msg.mk "M" [.singular "a" (.tMessage "T") (some (.vmsg (Msg.mk "T" [])))])
      [⟨"a", none⟩, ⟨"b", none⟩] (.wint 1)).2
      = Msg.mk "M" [.singular "a" (.tMessage "T") (some (.vmsg (Msg.mk "T" [])))] :=
  writeErrorLeavesUnchangedAmended (fun _ => Msg.mk "T" []) [⟨"a", none⟩, ⟨"b", none⟩]
    (Msg.mk "M" [.singular "a" (.tMessage "T") (some (.vmsg (Msg.mk "T" [])))])
    _ (.wint 1) .unknownField rfl rfl

/-- Witness for C7: on a repeated field of length 2, resolution succeeds
at index 1 and fails out-of-range at index 2. -/
theorem repeatedReadBoundsWitness :
    (∃ ref, getSegs (fun _ => Msg.mk "" [])
      (Msg.mk "Person" [.repeated "tags" .tString [.vstr "x", .vstr "y"]])
      [⟨"tags", some 1⟩] = .ok ref)
    ∧ getSegs (fun _ => Msg.mk "" [])
      (Msg.mk "Person" [.repeated "tags" .tString [.vstr "x", .vstr "y"]])
      [⟨"tags", some 2⟩] = .error .outOfRange :=
  ⟨(repeatedReadBounds.1 (fun _ => Msg.mk "" [])
      (Msg.mk "Person" [.repeated "tags" .tString [.vstr "x", .vstr "y"]])
      "tags" .tString [.vstr "x", .vstr "y"] 1 rfl).1.mpr (by decide),
   (repeatedReadBounds.1 (fun _ => Msg.mk "" [])
      (Msg.mk "Person" [.repeated "tags" .tString [.vstr "x", .vstr "y"]])
      "tags" .tString [.vstr "x", .vstr "y"] 2 rfl).2.mpr (by decide)⟩

theorem toFixed6_of_mul6 {q : ℚ} {z : ℤ} (hz : q = (z : ℚ) / 1000000) :
    toFixed6 q = fixed6Render z := by
  have hm : (z : ℚ) / 1000000 * 1000000 = (z : ℚ) := by
    field_simp
  rw [toFixed6, ratRound6_eq_round, hz, hm, round_intCast]

theorem assign_dispatch (m0 : Msg) (n : String) (kind : CppType) (w : WVal)
    (nv : Val) (ha : assignVal kind w = .ok nv) (hdom : faithfulDom w) :
    replyEqVal w (getFieldReply ⟨m0, .singular n kind (some nv), none⟩) := by
  cases kind with
  | tInt32 =>
    cases w with
    | wint v =>
      simp only [assignVal] at ha
      by_cases hb : -(2 ^ 31) ≤ v ∧ v < 2 ^ 31
      · rw [if_pos hb] at ha
        simp at ha
        rw [← ha]
        simp [replyEqVal, getFieldReply, asInt32]
      · rw [if_neg hb] at ha
        simp at ha
    | wnum q => simp [assignVal] at ha
    | wbool b => simp [assignVal] at ha
    | wstr s => simp [assignVal] at ha
  | tInt64 =>
    cases w with
    | wint v =>
      simp only [assignVal] at ha
      by_cases hb : -(2 ^ 63) ≤ v ∧ v < 2 ^ 63
      · rw [if_pos hb] at ha
        simp at ha
        rw [← ha]
        simp [replyEqVal, getFieldReply, asInt64]
      · rw [if_neg hb] at ha
        simp at ha
    | wnum q => simp [assignVal] at ha
    | wbool b => simp [assignVal] at ha
    | wstr s => simp [assignVal] at ha
  | tUInt32 =>
    cases w with
    | wint v =>
      simp only [assignVal] at ha
      by_cases hb : 0 ≤ v ∧ v < 2 ^ 32
      · rw [if_pos hb] at ha
        simp at ha
        rw [← ha]
        simp only [replyEqVal, getFieldReply, asUInt32]
        congr 1
        exact Int.toNat_of_nonneg hb.1
      · rw [if_neg hb] at ha
        simp at ha
    | wnum q => simp [assignVal] at ha
    | wbool b => simp [assignVal] at ha
    | wstr s => simp [assignVal] at ha
  | tUInt64 =>
    cases w with
    | wint v =>
      simp only [assignVal] at ha
      by_cases hb : 0 ≤ v ∧ v < 2 ^ 64
      · rw [if_pos hb] at ha
        simp at ha
        rw [← ha]
        simp only [replyEqVal, getFieldReply, asUInt64]
        have hlt : v.toNat < 2 ^ 63 := by
          obtain ⟨hd1, hd2⟩ := hdom
          omega
        rw [toSigned64, if_pos hlt]
        congr 1
        exact Int.toNat_of_nonneg hb.1
      · rw [if_neg hb] at ha
        simp at ha
    | wnum q => simp [assignVal] at ha
    | wbool b => simp [assignVal] at ha
    | wstr s => simp [assignVal] at ha
  | tDouble =>
    cases w with
    | wnum q =>
      simp only [assignVal] at ha
      simp at ha
      rw [← ha]
      obtain ⟨z, hz⟩ := hdom
      exact ⟨z, hz.symm, by
        simp only [getFieldReply, asDouble]
        rw [toFixed6_of_mul6 hz]⟩
    | wint v => simp [assignVal] at ha
    | wbool b => simp [assignVal] at ha
    | wstr s => simp [assignVal] at ha
  | tFloat =>
    cases w with
    | wnum q =>
      simp only [assignVal] at ha
      simp at ha
      rw [← ha]
      obtain ⟨z, hz⟩ := hdom
      exact ⟨z, hz.symm, by
        simp only [getFieldReply, asFloat]
        rw [toFixed6_of_mul6 hz]⟩
    | wint v => simp [assignVal] at ha
    | wbool b => simp [assignVal] at ha
    | wstr s => simp [assignVal] at ha
  | tBool =>
    cases w with
    | wbool b =>
      simp only [assignVal] at ha
      simp at ha
      rw [← ha]
      simp [replyEqVal, getFieldReply, asBool]
    | wint v => simp [assignVal] at ha
    | wnum q => simp [assignVal] at ha
    | wstr s => simp [assignVal] at ha
  | tString =>
    cases w with
    | wstr s =>
      simp only [assignVal] at ha
      simp at ha
      rw [← ha]
      simp [replyEqVal, getFieldReply, asString]
    | wint v => simp [assignVal] at ha
    | wnum q => simp [assignVal] at ha
    | wbool b => simp [assignVal] at ha
  | tMessage tn => simp [assignVal] at ha
  | tEnum => cases w <;> simp [assignVal] at ha

theorem assignOk_not_aggregate {kind : CppType} {w : WVal} {nv : Val}
    (ha : assignVal kind w = .ok nv) :
    kind ≠ .tEnum ∧ ∀ tn, kind ≠ .tMessage tn := by
  cases kind with
  | tEnum => cases w <;> simp [assignVal] at ha
  | tMessage tn => cases w <;> simp [assignVal] at ha
  | tInt32 => exact ⟨by simp, fun tn => by simp⟩
  | tInt64 => exact ⟨by simp, fun tn => by simp⟩
  | tUInt32 => exact ⟨by simp, fun tn => by simp⟩
  | tUInt64 => exact ⟨by simp, fun tn => by simp⟩
  | tDouble => exact ⟨by simp, fun tn => by simp⟩
  | tFloat => exact ⟨by simp, fun tn => by simp⟩
  | tBool => exact ⟨by simp, fun tn => by simp⟩
  | tString => exact ⟨by simp, fun tn => by simp⟩

theorem elem_eq_singular_dispatch (m0 : Msg) (n : String) (kind : CppType)
    (vs2 : List Val) (i : Nat) (nv : Val) (hvi : vs2[i]? = some nv)
    (hk1 : kind ≠ .tEnum) (hk2 : ∀ tn, kind ≠ .tMessage tn) :
    getArrayElement ⟨m0, .repeated n kind vs2, some i⟩
      = getFieldReply ⟨m0, .singular n kind (some nv), none⟩ := by
  cases kind with
  | tEnum => exact absurd rfl hk1
  | tMessage tn => exact absurd rfl (hk2 tn)
  | tInt32 => simp [getArrayElement, getFieldReply, hvi]
  | tInt64 => simp [getArrayElement, getFieldReply, hvi]
  | tUInt32 => simp [getArrayElement, getFieldReply, hvi]
  | tUInt64 => simp [getArrayElement, getFieldReply, hvi]
  | tDouble => simp [getArrayElement, getFieldReply, hvi]
  | tFloat => simp [getArrayElement, getFieldReply, hvi]
  | tBool => simp [getArrayElement, getFieldReply, hvi]
  | tString => simp [getArrayElement, getFieldReply, hvi]

/-- C8 (amended): writing an in-domain value at a path resolving to a
scalar leaf and reading the same path returns exactly that value, for
every value of the amended domain: integer values in `[-2^63, 2^63)`
(covering int32/int64/uint32 fully and uint64 up to `2^63 - 1`), every
bool and string value, and float/double values that are exact multiples
of `10^-6`; values outside this domain are not returned exactly (uint64
values `≥ 2^63` wrap, finer fractions are cut to six decimal places). -/
theorem scalarRoundTripAmended (reg : Registry) (segs : List Segment)
    (m m2 : Msg) (w : WVal)
    (hset : setSegs reg m segs w = (none, m2))
    (hdom : faithfulDom w) :
    replyEqVal w (getPath reg m2 segs) := by
  induction segs generalizing m m2 with
  | nil => simp [setSegs] at hset
  | cons seg rest ih =>
    cases rest with
    | nil =>
      simp only [setSegs] at hset
      cases hfind : findField (fieldsOf m) seg.name with
      | none => simp [hfind] at hset
      | some f =>
        simp only [hfind] at hset
        cases hleaf : setLeaf f seg.index w with
        | error e2 => simp [hleaf] at hset
        | ok f2 =>
          simp only [hleaf, Prod.mk.injEq] at hset
          obtain ⟨-, hm2⟩ := hset
          subst hm2
          cases f with
          | mapF n2 => simp [setLeaf] at hleaf
          | singular n2 kind v2 =>
            cases hidx : seg.index with
            | some i =>
              rw [hidx] at hleaf
              simp [setLeaf] at hleaf
            | none =>
              rw [hidx] at hleaf
              simp only [setLeaf] at hleaf
              cases hass : assignVal kind w with
              | error e3 =>
                rw [hass] at hleaf
                simp [Except.map] at hleaf
              | ok nv =>
                rw [hass] at hleaf
                simp [Except.map] at hleaf
                subst hleaf
                have hname : fieldName (Field.singular n2 kind (some nv)) = seg.name := by
                  have := findField_name hfind
                  simpa [fieldName] using this
                have hff : findField
                    (fieldsOf (withFields m (updateField (fieldsOf m) seg.name
                      (.singular n2 kind (some nv))))) seg.name
                    = some (.singular n2 kind (some nv)) := by
                  rw [fieldsOf_withFields]
                  exact findField_updateField _ hfind hname
                have hres : getSegs reg (withFields m (updateField (fieldsOf m) seg.name
                    (.singular n2 kind (some nv)))) [seg]
                    = .ok ⟨withFields m (updateField (fieldsOf m) seg.name
                        (.singular n2 kind (some nv))), .singular n2 kind (some nv), none⟩ := by
                  simp only [getSegs, resolveLast, hff, hidx]
                simp only [getPath, hres]
                exact assign_dispatch _ n2 kind w nv hass hdom
          | repeated n2 kind vs2 =>
            cases hidx : seg.index with
            | none =>
              rw [hidx] at hleaf
              simp [setLeaf] at hleaf
            | some i =>
              rw [hidx] at hleaf
              simp only [setLeaf] at hleaf
              by_cases hlt : i < vs2.length
              · rw [if_pos hlt] at hleaf
                cases hass : assignVal kind w with
                | error e3 =>
                  rw [hass] at hleaf
                  simp [Except.map] at hleaf
                | ok nv =>
                  rw [hass] at hleaf
                  simp [Except.map] at hleaf
                  subst hleaf
                  obtain ⟨hk1, hk2⟩ := assignOk_not_aggregate hass
                  have hname : fieldName (Field.repeated n2 kind (vs2.set i nv)) = seg.name := by
                    have := findField_name hfind
                    simpa [fieldName] using this
                  have hff : findField
                      (fieldsOf (withFields m (updateField (fieldsOf m) seg.name
                        (.repeated n2 kind (vs2.set i nv))))) seg.name
                      = some (.repeated n2 kind (vs2.set i nv)) := by
                    rw [fieldsOf_withFields]
                    exact findField_updateField _ hfind hname
                  have hlen : i < (vs2.set i nv).length := by
                    simpa using hlt
                  have hres : getSegs reg (withFields m (updateField (fieldsOf m) seg.name
                      (.repeated n2 kind (vs2.set i nv)))) [seg]
                      = .ok ⟨withFields m (updateField (fieldsOf m) seg.name
                          (.repeated n2 kind (vs2.set i nv))),
                          .repeated n2 kind (vs2.set i nv), some i⟩ := by
                    simp only [getSegs, resolveLast, hff, hidx]
                    rw [if_pos hlen]
                  simp only [getPath, hres, getFieldReply]
                  rw [elem_eq_singular_dispatch _ n2 kind (vs2.set i nv) i nv
                    (List.getElem?_set_eq_of_lt nv hlt) hk1 hk2]
                  exact assign_dispatch _ n2 kind w nv hass hdom
              · rw [if_neg hlt] at hleaf
                simp at hleaf
    | cons seg2 rest2 =>
      simp only [setSegs] at hset
      cases hfind : findField (fieldsOf m) seg.name with
      | none => simp [hfind] at hset
      | some f =>
        simp only [hfind] at hset
        cases hidx : seg.index with
        | some i =>
          simp only [hidx] at hset
          cases f with
          | singular n2 k2 v2 => simp at hset
          | mapF n2 => simp at hset
          | repeated n2 k2 vs2 =>
            cases k2 with
            | tMessage tn =>
              by_cases hlt : i < vs2.length
              · simp only [if_pos hlt] at hset
                cases hvi : vs2[i]? with
                | none =>
                  simp only [hvi] at hset
                  simp at hset
                | some vx =>
                  simp only [hvi] at hset
                  cases vx with
                  | vmsg sub =>
                    simp only [Prod.mk.injEq] at hset
                    obtain ⟨h1, h2⟩ := hset
                    have hr : setSegs reg sub (seg2 :: rest2) w
                        = (none, (setSegs reg sub (seg2 :: rest2) w).2) :=
                      Prod.ext h1 rfl
                    have hrec := ih sub _ hr
                    subst h2
                    have hname : fieldName (Field.repeated n2 (.tMessage tn)
                        (vs2.set i (.vmsg (setSegs reg sub (seg2 :: rest2) w).2)))
                        = seg.name := by
                      have := findField_name hfind
                      simpa [fieldName] using this
                    have hff : findField
                        (fieldsOf (withFields m (updateField (fieldsOf m) seg.name
                          (.repeated n2 (.tMessage tn)
                            (vs2.set i (.vmsg (setSegs reg sub (seg2 :: rest2) w).2))))))
                        seg.name
                        = some (.repeated n2 (.tMessage tn)
                            (vs2.set i (.vmsg (setSegs reg sub (seg2 :: rest2) w).2))) := by
                      rw [fieldsOf_withFields]
                      exact findField_updateField _ hfind hname
                    have hlen : i < (vs2.set i
                        (.vmsg (setSegs reg sub (seg2 :: rest2) w).2)).length := by
                      simpa using hlt
                    have hget : (vs2.set i
                        (.vmsg (setSegs reg sub (seg2 :: rest2) w).2))[i]?
                        = some (.vmsg (setSegs reg sub (seg2 :: rest2) w).2) :=
                      List.getElem?_set_eq_of_lt _ hlt
                    have hgs : getSegs reg (withFields m (updateField (fieldsOf m) seg.name
                        (.repeated n2 (.tMessage tn)
                          (vs2.set i (.vmsg (setSegs reg sub (seg2 :: rest2) w).2)))))
                        (seg :: seg2 :: rest2)
                        = getSegs reg (setSegs reg sub (seg2 :: rest2) w).2
                            (seg2 :: rest2) := by
                      simp only [getSegs, hff, hidx]
                      rw [if_pos hlen, hget]
                      rfl
                    simp only [getPath, hgs]
                    exact hrec
                  | vi32 v => simp at hset
                  | vi64 v => simp at hset
                  | vu32 v => simp at hset
                  | vu64 v => simp at hset
                  | vflt v => simp at hset
                  | vdbl v => simp at hset
                  | vbool v => simp at hset
                  | vstr v => simp at hset
                  | venum v => simp at hset
              · simp only [if_neg hlt] at hset
                simp at hset
            | tInt32 => simp at hset
            | tInt64 => simp at hset
            | tUInt32 => simp at hset
            | tUInt64 => simp at hset
            | tDouble => simp at hset
            | tFloat => simp at hset
            | tBool => simp at hset
            | tString => simp at hset
            | tEnum => simp at hset
        | none =>
          simp only [hidx] at hset
          cases f with
          | repeated n2 k2 vs2 => simp at hset
          | mapF n2 => simp at hset
          | singular n2 k2 v2 =>
            cases k2 with
            | tMessage tn =>
              simp only [Prod.mk.injEq] at hset
              obtain ⟨h1, h2⟩ := hset
              have hr : setSegs reg (asMsg tn v2) (seg2 :: rest2) w
                  = (none, (setSegs reg (asMsg tn v2) (seg2 :: rest2) w).2) :=
                Prod.ext h1 rfl
              have hrec := ih (asMsg tn v2) _ hr
              subst h2
              have hname : fieldName (Field.singular n2 (.tMessage tn)
                  (some (.vmsg (setSegs reg (asMsg tn v2) (seg2 :: rest2) w).2)))
                  = seg.name := by
                have := findField_name hfind
                simpa [fieldName] using this
              have hff : findField
                  (fieldsOf (withFields m (updateField (fieldsOf m) seg.name
                    (.singular n2 (.tMessage tn)
                      (some (.vmsg (setSegs reg (asMsg tn v2) (seg2 :: rest2) w).2))))))
                  seg.name
                  = some (.singular n2 (.tMessage tn)
                      (some (.vmsg (setSegs reg (asMsg tn v2) (seg2 :: rest2) w).2))) := by
                rw [fieldsOf_withFields]
                exact findField_updateField _ hfind hname
              have hgs : getSegs reg (withFields m (updateField (fieldsOf m) seg.name
                  (.singular n2 (.tMessage tn)
                    (some (.vmsg (setSegs reg (asMsg tn v2) (seg2 :: rest2) w).2)))))
                  (seg :: seg2 :: rest2)
                  = getSegs reg (setSegs reg (asMsg tn v2) (seg2 :: rest2) w).2
                      (seg2 :: rest2) := by
                simp only [getSegs, hff, hidx]
                rfl
              simp only [getPath, hgs]
              exact hrec
            | tInt32 => simp at hset
            | tInt64 => simp at hset
            | tUInt32 => simp at hset
            | tUInt64 => simp at hset
            | tDouble => simp at hset
            | tFloat => simp at hset
            | tBool => simp at hset
            | tString => simp at hset
            | tEnum => simp at hset

/-- Witness for the amended C8: writing 42 to the int32 field `age` and
reading it back returns the integer 42. -/
theorem scalarRoundTripAmendedWitness :
    replyEqVal (.wint 42)
      (getPath (fun _ => Msg.mk "" [])
        ((setSegs (fun _ => Msg.mk "" [])
          (Msg.mk "Person" [.singular "age" .tInt32 (some (.vi32 30))])
          [⟨"age", none⟩] (.wint 42)).2)
        [⟨"age", none⟩]) :=
  scalarRoundTripAmended (fun _ => Msg.mk "" []) [⟨"age", none⟩]
    (Msg.mk "Person" [.singular "age" .tInt32 (some (.vi32 30))]) _ (.wint 42)
    rfl ⟨by norm_num, by norm_num⟩

/-- Counterexample for C8 as stated: the in-domain double values `2^-24`
and `0` both round-trip to the identical reply `"0.000000"`, so
`get(set(msg, P, v), P)` cannot equal `v` for both — the round-trip fails
for the fractional value `2^-24`. -/
theorem doubleRoundTripLossy :
    (setSegs (fun _ => Msg.mk "" [])
      (Msg.mk "M" [.singular "d" .tDouble (some (.vdbl qzero))])
      [⟨"d", none⟩] (.wnum eps24)).1 = none
    ∧ (setSegs (fun _ => Msg.mk "" [])
      (Msg.mk "M" [.singular "d" .tDouble (some (.vdbl qzero))])
      [⟨"d", none⟩] (.wnum qzero)).1 = none
    ∧ getPath (fun _ => Msg.mk "" [])
        ((setSegs (fun _ => Msg.mk "" [])
          (Msg.mk "M" [.singular "d" .tDouble (some (.vdbl qzero))])
          [⟨"d", none⟩] (.wnum eps24)).2) [⟨"d", none⟩]
        = .simpleString "0.000000"
    ∧ getPath (fun _ => Msg.mk "" [])
        ((setSegs (fun _ => Msg.mk "" [])
          (Msg.mk "M" [.singular "d" .tDouble (some (.vdbl qzero))])
          [⟨"d", none⟩] (.wnum qzero)).2) [⟨"d", none⟩]
        = .simpleString "0.000000"
    ∧ eps24 ≠ qzero := by
  exact ⟨rfl, rfl, by decide, by decide, by decide⟩

end RedisPb
